import Mathlib

/-!
Verification of the software rasterizer in Qu3zada22/proyecto3 (Rust).

Shallow embedding notes:
* `f32` values flowing through the framebuffer (depths, color components)
  are modelled by `F32`: an exact rational payload plus the IEEE special
  values `+inf`, `-inf` and `nan`.  Comparisons (`<`, `<=`), `clamp`, and
  the saturating `as u8` cast follow the Rust/IEEE semantics on these
  constructors; finite arithmetic is exact rational arithmetic (rounding
  of f32 is abstracted away — every concrete input used below is chosen so
  that the f32 computation is exact).
* The vertex-transform pipeline (`shaders.rs`) is embedded over exact
  rationals, since the claims about it are structural.
* `raylib` library types (`Color`, `Image`, `Vector3`, `Matrix`) are
  modelled by plain structures; the `Image` color buffer is a row-major
  `List Color` of `width * height` pixels, exactly the grid
  `Image::gen_image_color` / `draw_pixel` maintain.
* Types and functions from repository files that are not under `src/`
  (`matrix.rs`, `vertex.rs`, `fragment.rs`) are modelled from the spec and
  carry a doc comment saying so.
-/

/-- Model of Rust `f32` for the framebuffer path: exact rational finite
values plus the IEEE special values. -/
inductive F32 where
  | nan  : F32
  | inf  : F32
  | ninf : F32
  | val  : ℚ → F32
deriving DecidableEq, Repr

namespace F32

/-- IEEE `<` on `F32`: any comparison with `nan` is false; `-inf < q < +inf`. -/
def lt : F32 → F32 → Bool
  | nan, _ => false
  | _, nan => false
  | inf, _ => false
  | ninf, ninf => false
  | ninf, _ => true
  | val _, inf => true
  | val _, ninf => false
  | val q, val r => decide (q < r)

/-- IEEE `<=` on `F32`: any comparison with `nan` is false. -/
def le : F32 → F32 → Bool
  | nan, _ => false
  | _, nan => false
  | ninf, _ => true
  | _, inf => true
  | inf, _ => false
  | val _, ninf => false
  | val q, val r => decide (q ≤ r)

/-- Rust `f32::is_finite`. -/
def isFinite : F32 → Bool
  | val _ => true
  | _ => false

/-- Rust `f32::clamp(lo, hi)`: `lo` if `self < lo`, `hi` if `self > hi`,
otherwise `self` (so `nan` stays `nan`). -/
def clamp (v lo hi : F32) : F32 :=
  if lt v lo then lo else if lt hi v then hi else v

/-- Rust's `(v * 255.0) as u8` in one step (the saturating cast of the
scaled value): `nan ↦ 0`, at most `0 ↦ 0`, at least `1 ↦ 255`, otherwise
truncation of `255 * v` — written on the rational's numerator and
denominator (for `0 < v < 1` the integer division `255 * num / den` is
exactly the truncation of `255 * v`) so the definition evaluates by
kernel reduction. -/
def scale255ToU8 : F32 → ℕ
  | nan => 0
  | inf => 255
  | ninf => 0
  | val r => if r ≤ 0 then 0 else if 1 ≤ r then 255 else (255 * r.num / (r.den : ℤ)).toNat

/-- Rust `f32::round` (half away from zero) followed by a saturating
`as i32` cast.  For `r = num / den ≥ 0`, `round r = ⌊r + 1/2⌋ =
(2 * num + den) / (2 * den)` by integer division. -/
def roundToI32 : F32 → ℤ
  | nan => 0
  | inf => 2 ^ 31 - 1
  | ninf => -(2 ^ 31)
  | val r =>
    let n : ℤ :=
      if 0 ≤ r.num then (2 * r.num + (r.den : ℤ)) / (2 * (r.den : ℤ))
      else -((2 * (-r.num) + (r.den : ℤ)) / (2 * (r.den : ℤ)))
    if n < -(2 ^ 31) then -(2 ^ 31) else if n > 2 ^ 31 - 1 then 2 ^ 31 - 1 else n

theorem ltIrrefl (a : F32) : lt a a = false := by
  cases a
  all_goals simp [lt]

theorem ltTrans {a b c : F32} (h1 : lt a b = true) (h2 : lt b c = true) :
    lt a c = true := by
  cases a <;> cases b <;> cases c <;> simp_all [lt]
  linarith

theorem not_lt_of_ge {a b : F32} (h : le a b = true) : lt b a = false := by
  cases a <;> cases b <;> simp_all [lt, le]

theorem lt_inf_of_lt {a b : F32} (h : lt a b = true) : lt a inf = true := by
  cases a <;> cases b <;> simp_all [lt]

end F32

/-- `raylib::Color`: four 8-bit channels. -/
structure Color where
  r : ℕ
  g : ℕ
  b : ℕ
  a : ℕ
deriving DecidableEq, Repr

def Color.black : Color := ⟨0, 0, 0, 255⟩
def Color.white : Color := ⟨255, 255, 255, 255⟩

/-- `raylib::Vector3` holding `f32` components (colors, fragment data). -/
structure V3 where
  x : F32
  y : F32
  z : F32
deriving DecidableEq, Repr

/-- One color channel as stored by `Framebuffer::point`:
`(component.clamp(0.0, 1.0) * 255.0) as u8`. -/
def chanByte (v : F32) : ℕ :=
  F32.scale255ToU8 (F32.clamp v (F32.val 0) (F32.val 1))

/-- The `Color::new(...)` built in `Framebuffer::point` (framebuffer.rs:38-43). -/
def packColor (c : V3) : Color :=
  ⟨chanByte c.x, chanByte c.y, chanByte c.z, 255⟩

/-- `Framebuffer` (framebuffer.rs:3-10).  The `Image` color buffer is its
row-major pixel grid. -/
structure Framebuffer where
  width : ℤ
  height : ℤ
  colorBuffer : List Color
  backgroundColor : Color
  currentColor : Color
  depthBuffer : List F32
deriving DecidableEq, Repr

namespace Framebuffer

/-- `Framebuffer::new` (framebuffer.rs:13-25). -/
def new (width height : ℤ) : Framebuffer :=
  { width := width
    height := height
    colorBuffer := List.replicate (width * height).toNat Color.black
    backgroundColor := Color.black
    currentColor := Color.white
    depthBuffer := List.replicate (width * height).toNat F32.inf }

/-- `Framebuffer::clear` (framebuffer.rs:27-30): background color into
every pixel, `+inf` into every depth cell. -/
def clear (fb : Framebuffer) : Framebuffer :=
  { fb with
    colorBuffer := List.replicate (fb.width * fb.height).toNat fb.backgroundColor
    depthBuffer := List.replicate (fb.width * fb.height).toNat F32.inf }

/-- `Framebuffer::point` (framebuffer.rs:32-47): bounds check, strict
`depth < depth_buffer[index]` test, then update of both buffers with the
clamped, packed color. -/
def point (fb : Framebuffer) (x y : ℤ) (color : V3) (depth : F32) : Framebuffer :=
  if 0 ≤ x ∧ x < fb.width ∧ 0 ≤ y ∧ y < fb.height then
    if F32.lt depth (fb.depthBuffer.getD (y * fb.width + x).toNat F32.nan) then
      { fb with
        depthBuffer := fb.depthBuffer.set (y * fb.width + x).toNat depth
        colorBuffer := fb.colorBuffer.set (y * fb.width + x).toNat (packColor color) }
    else fb
  else fb

end Framebuffer

/-- The depth cell of pixel `(x, y)` (row-major index `y * width + x`). -/
def cellD (fb : Framebuffer) (x y : ℤ) : F32 :=
  fb.depthBuffer.getD (y * fb.width + x).toNat F32.nan

/-- The color cell of pixel `(x, y)`. -/
def cellC (fb : Framebuffer) (x y : ℤ) : Color :=
  fb.colorBuffer.getD (y * fb.width + x).toNat Color.black

/-- C3 — `Framebuffer::point` with `x` or `y` outside
`[0,width) × [0,height)` is a no-op on the whole framebuffer state (and,
being a total function, raises no error). -/
theorem C3_out_of_bounds_noop (fb : Framebuffer) (x y : ℤ) (c : V3) (d : F32)
    (h : ¬(0 ≤ x ∧ x < fb.width ∧ 0 ≤ y ∧ y < fb.height)) :
    fb.point x y c d = fb := by
  unfold Framebuffer.point
  exact if_neg h

theorem C3_witness :
    ¬((0:ℤ) ≤ -1 ∧ (-1:ℤ) < (Framebuffer.new 4 4).width ∧ (0:ℤ) ≤ 2 ∧
        (2:ℤ) < (Framebuffer.new 4 4).height) ∧
    (Framebuffer.new 4 4).point (-1) 2 ⟨F32.val 1, F32.val 0, F32.val 0⟩ (F32.val 1)
      = Framebuffer.new 4 4 :=
  ⟨by decide,
   C3_out_of_bounds_noop (Framebuffer.new 4 4) (-1) 2 _ _ (by decide)⟩

/-! ### Vertex transform pipeline (shaders.rs), over exact rationals -/

/-- 3-component vector of the vertex pipeline (`raylib::Vector3` in the
source), over exact rationals. -/
structure Vec3 where
  x : ℚ
  y : ℚ
  z : ℚ
deriving DecidableEq, Repr

/-- `raylib::Vector4` over exact rationals. -/
structure Vec4 where
  x : ℚ
  y : ℚ
  z : ℚ
  w : ℚ
deriving DecidableEq, Repr

/-- A 4×4 matrix, by rows. -/
structure Mat4 where
  r0 : Vec4
  r1 : Vec4
  r2 : Vec4
  r3 : Vec4
deriving DecidableEq, Repr

/-- Modelled from the spec: `matrix.rs` is not under `src/`; §4.1 fixes
`multiply(matrix, vector4)` as the standard 4×4 × 4×1 product (each row
dotted with the column vector). -/
def multiply_matrix_vector4 (m : Mat4) (v : Vec4) : Vec4 :=
  ⟨m.r0.x * v.x + m.r0.y * v.y + m.r0.z * v.z + m.r0.w * v.w,
   m.r1.x * v.x + m.r1.y * v.y + m.r1.z * v.z + m.r1.w * v.w,
   m.r2.x * v.x + m.r2.y * v.y + m.r2.z * v.z + m.r2.w * v.w,
   m.r3.x * v.x + m.r3.y * v.y + m.r3.z * v.z + m.r3.w * v.w⟩

/-- Modelled from the spec: `vertex.rs` is not under `src/`; §3 "Vertex"
lists the fields (position, normal, tex coordinate, color, and the two
frame-local transformed fields); names follow their uses in
`shaders.rs:44-51`. -/
structure Vertex where
  position : Vec3
  normal : Vec3
  tex_coords : ℚ × ℚ
  color : Vec3
  transformed_position : Vec3
  transformed_normal : Vec3
deriving DecidableEq, Repr

/-- `Uniforms` (main.rs:52-59). -/
structure Uniforms where
  model_matrix : Mat4
  view_matrix : Mat4
  projection_matrix : Mat4
  viewport_matrix : Mat4
  time : ℚ
  dt : ℚ
deriving DecidableEq, Repr

/-- `vertex_shader` (shaders.rs:32-52): model → view → projection, a
perspective divide guarded by `clip.w ≠ 0` (degenerate passthrough
otherwise), viewport on the NDC point re-homogenized with `w = 1`; the
output vertex keeps the static fields and copies `normal` into
`transformed_normal`. -/
def vertex_shader (vertex : Vertex) (uniforms : Uniforms) : Vertex :=
  let position_vec4 : Vec4 := ⟨vertex.position.x, vertex.position.y, vertex.position.z, 1⟩
  let world_position := multiply_matrix_vector4 uniforms.model_matrix position_vec4
  let view_position := multiply_matrix_vector4 uniforms.view_matrix world_position
  let clip_position := multiply_matrix_vector4 uniforms.projection_matrix view_position
  let ndc : Vec3 :=
    if clip_position.w ≠ 0 then
      ⟨clip_position.x / clip_position.w, clip_position.y / clip_position.w,
        clip_position.z / clip_position.w⟩
    else
      ⟨clip_position.x, clip_position.y, clip_position.z⟩
  let ndc_vec4 : Vec4 := ⟨ndc.x, ndc.y, ndc.z, 1⟩
  let screen_position := multiply_matrix_vector4 uniforms.viewport_matrix ndc_vec4
  { position := vertex.position
    normal := vertex.normal
    tex_coords := vertex.tex_coords
    color := vertex.color
    transformed_position := ⟨screen_position.x, screen_position.y, screen_position.z⟩
    transformed_normal := vertex.normal }

/-- The screen position described by the claim, word for word: world =
model·position, view = view·world, clip = projection·view; if `clip.w ≠ 0`
then NDC = clip.xyz / clip.w else NDC = clip.xyz unmodified; result =
viewport · (NDC as homogeneous point with w = 1), taking xyz. -/
def specScreenPosition (vertex : Vertex) (uniforms : Uniforms) : Vec3 :=
  let world := multiply_matrix_vector4 uniforms.model_matrix
    ⟨vertex.position.x, vertex.position.y, vertex.position.z, 1⟩
  let view := multiply_matrix_vector4 uniforms.view_matrix world
  let clip := multiply_matrix_vector4 uniforms.projection_matrix view
  let ndc : Vec3 :=
    if clip.w ≠ 0 then ⟨clip.x / clip.w, clip.y / clip.w, clip.z / clip.w⟩
    else ⟨clip.x, clip.y, clip.z⟩
  let screen := multiply_matrix_vector4 uniforms.viewport_matrix ⟨ndc.x, ndc.y, ndc.z, 1⟩
  ⟨screen.x, screen.y, screen.z⟩

/-- C6 — the vertex transform computes world = model·position, view =
view·world, clip = projection·view, divides by `clip.w` exactly when it
is nonzero (degenerate passthrough otherwise, not an error), and the
resulting `transformed_position` is viewport · (NDC with w = 1). -/
theorem C6_vertex_transform_refinement (v : Vertex) (u : Uniforms) :
    (vertex_shader v u).transformed_position = specScreenPosition v u := rfl

/-- Modelled from the spec: the rotation the model transform applies to a
direction — its upper-left 3×3 block times the vector (the translation
column does not act on directions). -/
def modelRotated (m : Mat4) (v : Vec3) : Vec3 :=
  ⟨m.r0.x * v.x + m.r0.y * v.y + m.r0.z * v.z,
   m.r1.x * v.x + m.r1.y * v.y + m.r1.z * v.z,
   m.r2.x * v.x + m.r2.y * v.y + m.r2.z * v.z⟩

/-- Modelled from the spec: §4.2's "re-normalized" output — `n` is a
re-normalization of `v` when it is a positive rescaling of `v` with unit
squared length. -/
def IsRenormalizedOf (n v : Vec3) : Prop :=
  ∃ c : ℚ, 0 < c ∧ n = ⟨c * v.x, c * v.y, c * v.z⟩ ∧
    n.x * n.x + n.y * n.y + n.z * n.z = 1

def idMat4 : Mat4 :=
  ⟨⟨1, 0, 0, 0⟩, ⟨0, 1, 0, 0⟩, ⟨0, 0, 1, 0⟩, ⟨0, 0, 0, 1⟩⟩

/-- Uniforms whose model transform is the (exactly representable)
rotation about z by the 3-4-5 angle. -/
def rotZUniforms : Uniforms :=
  { model_matrix := ⟨⟨3/5, -(4/5), 0, 0⟩, ⟨4/5, 3/5, 0, 0⟩, ⟨0, 0, 1, 0⟩, ⟨0, 0, 0, 1⟩⟩
    view_matrix := idMat4
    projection_matrix := idMat4
    viewport_matrix := idMat4
    time := 0
    dt := 0 }

def unitXVertex : Vertex :=
  ⟨⟨0, 0, 0⟩, ⟨1, 0, 0⟩, (0, 0), ⟨1, 1, 1⟩, ⟨0, 0, 0⟩, ⟨0, 0, 0⟩⟩

/-- C5 is false on the code: with the model transform rotating about z by
the 3-4-5 angle and input normal (1,0,0), the rotated re-normalized
normal would be (3/5, 4/5, 0), but `vertex_shader` outputs the input
normal (1,0,0) unchanged (shaders.rs:50), which is no positive rescaling
of (3/5, 4/5, 0). -/
theorem C5_counterexample :
    ¬ IsRenormalizedOf ((vertex_shader unitXVertex rotZUniforms).transformed_normal)
        (modelRotated rotZUniforms.model_matrix unitXVertex.normal) := by
  have h1 : (vertex_shader unitXVertex rotZUniforms).transformed_normal = ⟨1, 0, 0⟩ := rfl
  have h2 : modelRotated rotZUniforms.model_matrix unitXVertex.normal = ⟨3/5, 4/5, 0⟩ := by
    show (⟨3/5 * 1 + -(4/5) * 0 + 0 * 0,
           4/5 * 1 + 3/5 * 0 + 0 * 0,
           0 * 1 + 0 * 0 + 1 * 0⟩ : Vec3) = ⟨3/5, 4/5, 0⟩
    norm_num
  rw [h1, h2]
  rintro ⟨c, hc, heq, -⟩
  have h3 : (0 : ℚ) = c * (4/5) := congrArg Vec3.y heq
  nlinarith [mul_pos hc (show (0:ℚ) < 4/5 by norm_num)]

/-- C5 (amended) — the vertex stage copies the input normal unchanged
into `transformed_normal` (shaders.rs:50): it is neither rotated by the
model transform nor re-normalized. -/
theorem C5_amended_normal_copy (v : Vertex) (u : Uniforms) :
    (vertex_shader v u).transformed_normal = v.normal := rfl

/-! ### Fragments, shader dispatch and the per-fragment frame driver -/

/-- A 2-component `f32` vector (the fragment's screen position). -/
structure V2 where
  x : F32
  y : F32
deriving DecidableEq, Repr

/-- Modelled from the spec: `fragment.rs` is not under `src/`; §3
"Fragment" lists the screen position, depth, interpolated world position
and interpolated vertex color; field names follow their uses in
`main.rs:88-111` and `shaders.rs`. -/
structure Fragment where
  position : V2
  depth : F32
  world_position : V3
  color : V3
deriving DecidableEq, Repr

/-- `fragment_shader` (shaders.rs:54-56): pass-through of the fragment's
interpolated vertex color. -/
def fragment_shader (fragment : Fragment) (_uniforms : Uniforms) : V3 :=
  fragment.color

/-- The shader dispatch of `render` (main.rs:97-106).  The seven material
shaders are procedural trigonometric functions whose values are
irrelevant to the dispatch contract, so they are parameters here; the
default arm is the source's `fragment_shader`. -/
def selectFragmentColor
    (sunS mercuryS earthS marsS uranusS naveS skyboxS : Fragment → Uniforms → V3)
    (planet_type : String) (fragment : Fragment) (uniforms : Uniforms) : V3 :=
  match planet_type with
  | "Sun" => sunS fragment uniforms
  | "Mercury" => mercuryS fragment uniforms
  | "Earth" => earthS fragment uniforms
  | "Mars" => marsS fragment uniforms
  | "Uranus" => uranusS fragment uniforms
  | "Nave" => naveS fragment uniforms
  | "Skybox" => skyboxS fragment uniforms
  | _ => fragment_shader fragment uniforms

/-- The per-fragment body of `render`'s write loop (main.rs:86-113):
skip on non-finite screen position or depth, round the position, skip
when out of bounds, then shade and write through `point`. -/
def processFragment
    (sunS mercuryS earthS marsS uranusS naveS skyboxS : Fragment → Uniforms → V3)
    (planet_type : String) (framebuffer : Framebuffer) (fragment : Fragment)
    (uniforms : Uniforms) : Framebuffer :=
  if ¬(F32.isFinite fragment.position.x) ∨ ¬(F32.isFinite fragment.position.y) ∨
      ¬(F32.isFinite fragment.depth) then
    framebuffer
  else if F32.roundToI32 fragment.position.x < 0 ∨
      framebuffer.width ≤ F32.roundToI32 fragment.position.x ∨
      F32.roundToI32 fragment.position.y < 0 ∨
      framebuffer.height ≤ F32.roundToI32 fragment.position.y then
    framebuffer
  else
    framebuffer.point (F32.roundToI32 fragment.position.x)
      (F32.roundToI32 fragment.position.y)
      (selectFragmentColor sunS mercuryS earthS marsS uranusS naveS skyboxS
        planet_type fragment uniforms)
      fragment.depth

/-- C8 — when the surface tag is none of the seven recognized variants,
the dispatch falls back to the pass-through `fragment_shader`, returning
exactly the fragment's interpolated vertex color, whatever the material
shaders are. -/
theorem C8_unrecognized_tag_fallback
    (s1 s2 s3 s4 s5 s6 s7 : Fragment → Uniforms → V3) (tag : String)
    (frag : Fragment) (u : Uniforms)
    (h : tag ∉ (["Sun", "Mercury", "Earth", "Mars", "Uranus", "Nave",
        "Skybox"] : List String)) :
    selectFragmentColor s1 s2 s3 s4 s5 s6 s7 tag frag u = frag.color := by
  unfold selectFragmentColor
  split
  · exact absurd (by simp) h
  · exact absurd (by simp) h
  · exact absurd (by simp) h
  · exact absurd (by simp) h
  · exact absurd (by simp) h
  · exact absurd (by simp) h
  · exact absurd (by simp) h
  · rfl

def constShade : Fragment → Uniforms → V3 := fun _ _ => ⟨F32.val 0, F32.val 0, F32.val 0⟩

def uDummy : Uniforms := ⟨idMat4, idMat4, idMat4, idMat4, 0, 0⟩

def redFrag : Fragment :=
  ⟨⟨F32.val 0, F32.val 0⟩, F32.val 0, ⟨F32.val 0, F32.val 0, F32.val 0⟩,
    ⟨F32.val 1, F32.val 0, F32.val 0⟩⟩

theorem C8_witness :
    ("Venus" ∉ (["Sun", "Mercury", "Earth", "Mars", "Uranus", "Nave",
        "Skybox"] : List String)) ∧
    selectFragmentColor constShade constShade constShade constShade constShade constShade
        constShade "Venus" redFrag uDummy = redFrag.color :=
  ⟨by decide,
   C8_unrecognized_tag_fallback constShade constShade constShade constShade constShade
     constShade constShade "Venus" redFrag uDummy (by decide)⟩

/-- A fragment with finite position and depth whose interpolated color
has a non-finite (NaN) component. -/
def nanColorFrag : Fragment :=
  ⟨⟨F32.val 0, F32.val 0⟩, F32.val 0, ⟨F32.val 0, F32.val 0, F32.val 0⟩,
    ⟨F32.nan, F32.val 0, F32.val 0⟩⟩

/-- C4 is false on the code: `render` checks finiteness of the screen
position and depth only, never of the shaded color.  With an unrecognized
tag the shader returns the fragment's color whose x-component is NaN, yet
the framebuffer write still happens: the depth cell of (0,0) changes from
`+inf` to `0`. -/
theorem C4_counterexample :
    F32.isFinite (selectFragmentColor constShade constShade constShade constShade constShade
        constShade constShade "Pluto" nanColorFrag uDummy).x = false ∧
    cellD (Framebuffer.new 4 4) 0 0 = F32.inf ∧
    cellD (processFragment constShade constShade constShade constShade constShade constShade
        constShade "Pluto" (Framebuffer.new 4 4) nanColorFrag uDummy) 0 0 = F32.val 0 := by
  refine ⟨rfl, by decide, by decide⟩

/-- C4 (amended) — the frame driver discards a fragment exactly on a
non-finite screen position or depth (or an out-of-bounds rounded
position); the shaded color is never inspected: when the position and
depth checks pass, the write proceeds through `point` with whatever color
the shader returned, non-finite components included. -/
theorem C4_amended_discard
    (s1 s2 s3 s4 s5 s6 s7 : Fragment → Uniforms → V3) (tag : String)
    (fb : Framebuffer) (frag : Fragment) (u : Uniforms) :
    ((¬(F32.isFinite frag.position.x) ∨ ¬(F32.isFinite frag.position.y) ∨
        ¬(F32.isFinite frag.depth)) →
      processFragment s1 s2 s3 s4 s5 s6 s7 tag fb frag u = fb) ∧
    (F32.isFinite frag.position.x = true → F32.isFinite frag.position.y = true →
      F32.isFinite frag.depth = true →
      ¬(F32.roundToI32 frag.position.x < 0 ∨ fb.width ≤ F32.roundToI32 frag.position.x ∨
          F32.roundToI32 frag.position.y < 0 ∨ fb.height ≤ F32.roundToI32 frag.position.y) →
      processFragment s1 s2 s3 s4 s5 s6 s7 tag fb frag u
        = fb.point (F32.roundToI32 frag.position.x) (F32.roundToI32 frag.position.y)
            (selectFragmentColor s1 s2 s3 s4 s5 s6 s7 tag frag u) frag.depth) := by
  constructor
  · intro h
    unfold processFragment
    rw [if_pos h]
  · intro h1 h2 h3 h4
    have hcond : ¬(¬(F32.isFinite frag.position.x = true) ∨
        ¬(F32.isFinite frag.position.y = true) ∨ ¬(F32.isFinite frag.depth = true)) := by
      push_neg
      exact ⟨h1, h2, h3⟩
    unfold processFragment
    rw [if_neg hcond, if_neg h4]

/-- A fragment whose screen position x is NaN. -/
def nanPosFrag : Fragment :=
  ⟨⟨F32.nan, F32.val 0⟩, F32.val 0, ⟨F32.val 0, F32.val 0, F32.val 0⟩,
    ⟨F32.val 0, F32.val 0, F32.val 0⟩⟩

theorem C4_witness :
    (¬(F32.isFinite nanPosFrag.position.x) ∨ ¬(F32.isFinite nanPosFrag.position.y) ∨
        ¬(F32.isFinite nanPosFrag.depth)) ∧
    processFragment constShade constShade constShade constShade constShade constShade
        constShade "Nave" (Framebuffer.new 4 4) nanPosFrag uDummy = Framebuffer.new 4 4 :=
  ⟨by decide,
   (C4_amended_discard constShade constShade constShade constShade constShade constShade
      constShade "Nave" (Framebuffer.new 4 4) nanPosFrag uDummy).1 (by decide)⟩

/-! ### List helper lemmas (self-contained, independent of library names) -/

theorem getD_set_self {α : Type _} :
    ∀ (l : List α) (n : ℕ) (a d : α), n < l.length → (l.set n a).getD n d = a := by
  intro l
  induction l with
  | nil => intro n a d h; simp at h
  | cons x t ih =>
    intro n a d h
    cases n with
    | zero => rfl
    | succ m => simpa using ih m a d (by simpa using h)

theorem getD_set_ne {α : Type _} :
    ∀ (l : List α) (n m : ℕ) (a d : α), n ≠ m → (l.set n a).getD m d = l.getD m d := by
  intro l
  induction l with
  | nil => intro n m a d _; rfl
  | cons x t ih =>
    intro n m a d hnm
    cases n with
    | zero =>
      cases m with
      | zero => exact absurd rfl hnm
      | succ k => rfl
    | succ n' =>
      cases m with
      | zero => rfl
      | succ k => simpa using ih n' k a d (by omega)

theorem getD_replicate {α : Type _} :
    ∀ (n m : ℕ) (a d : α), m < n → (List.replicate n a).getD m d = a := by
  intro n
  induction n with
  | zero => intro m a d h; omega
  | succ k ih =>
    intro m a d h
    cases m with
    | zero => rfl
    | succ j => simpa [List.replicate] using ih j a d (by omega)

/-- Row-major pixel index is within a `width * height` buffer. -/
theorem idx_lt {w h x y : ℤ} (hx0 : 0 ≤ x) (hxw : x < w) (hy0 : 0 ≤ y) (hyh : y < h) :
    (y * w + x).toNat < (w * h).toNat := by
  have hw : 0 < w := lt_of_le_of_lt hx0 hxw
  have h1 : y * w + x < w * h := by
    nlinarith [mul_le_mul_of_nonneg_right (show y ≤ h - 1 by omega) (le_of_lt hw)]
  have h2 : 0 ≤ y * w + x := add_nonneg (mul_nonneg hy0 (le_of_lt hw)) hx0
  omega

/-- Distinct in-bounds pixels have distinct row-major indices. -/
theorem idx_inj {w h x y x2 y2 : ℤ}
    (hx0 : 0 ≤ x) (hxw : x < w) (hy0 : 0 ≤ y) (hyh : y < h)
    (hx20 : 0 ≤ x2) (hx2w : x2 < w) (hy20 : 0 ≤ y2) (_hy2h : y2 < h)
    (hne : ¬(x2 = x ∧ y2 = y)) :
    (y2 * w + x2).toNat ≠ (y * w + x).toNat := by
  have hw : 0 < w := lt_of_le_of_lt hx0 hxw
  have n1 : 0 ≤ y * w + x := add_nonneg (mul_nonneg hy0 (le_of_lt hw)) hx0
  have n2 : 0 ≤ y2 * w + x2 := add_nonneg (mul_nonneg hy20 (le_of_lt hw)) hx20
  intro heq
  have heq2 : y2 * w + x2 = y * w + x := by omega
  have hy : y2 = y := by
    rcases lt_trichotomy y2 y with hlt | he | hgt
    · nlinarith [mul_le_mul_of_nonneg_right (show y2 + 1 ≤ y by omega) (le_of_lt hw)]
    · exact he
    · nlinarith [mul_le_mul_of_nonneg_right (show y + 1 ≤ y2 by omega) (le_of_lt hw)]
  have hx : x2 = x := by
    subst hy
    nlinarith
  exact hne ⟨hx, hy⟩

/-! ### `point` characterization lemmas -/

/-- `point` at an out-of-bounds coordinate leaves the framebuffer intact. -/
theorem point_oob (fb : Framebuffer) (x y : ℤ) (c : V3) (d : F32)
    (h : ¬(0 ≤ x ∧ x < fb.width ∧ 0 ≤ y ∧ y < fb.height)) :
    fb.point x y c d = fb := by
  unfold Framebuffer.point
  exact if_neg h

/-- `point` at an in-bounds coordinate is exactly the depth-tested update. -/
theorem point_spec_in (fb : Framebuffer) (x y : ℤ) (c : V3) (d : F32)
    (hb : 0 ≤ x ∧ x < fb.width ∧ 0 ≤ y ∧ y < fb.height) :
    fb.point x y c d =
      if F32.lt d (fb.depthBuffer.getD (y * fb.width + x).toNat F32.nan) then
        { fb with
          depthBuffer := fb.depthBuffer.set (y * fb.width + x).toNat d
          colorBuffer := fb.colorBuffer.set (y * fb.width + x).toNat (packColor c) }
      else fb := by
  unfold Framebuffer.point
  rw [if_pos hb]

theorem point_width (fb : Framebuffer) (x y : ℤ) (c : V3) (d : F32) :
    (fb.point x y c d).width = fb.width := by
  unfold Framebuffer.point
  split
  · split
    · rfl
    · rfl
  · rfl

theorem point_height (fb : Framebuffer) (x y : ℤ) (c : V3) (d : F32) :
    (fb.point x y c d).height = fb.height := by
  unfold Framebuffer.point
  split
  · split
    · rfl
    · rfl
  · rfl

theorem point_bg (fb : Framebuffer) (x y : ℤ) (c : V3) (d : F32) :
    (fb.point x y c d).backgroundColor = fb.backgroundColor := by
  unfold Framebuffer.point
  split
  · split
    · rfl
    · rfl
  · rfl

theorem point_colorLen (fb : Framebuffer) (x y : ℤ) (c : V3) (d : F32) :
    (fb.point x y c d).colorBuffer.length = fb.colorBuffer.length := by
  unfold Framebuffer.point
  split
  · split
    · simp
    · rfl
  · rfl

theorem point_depthLen (fb : Framebuffer) (x y : ℤ) (c : V3) (d : F32) :
    (fb.point x y c d).depthBuffer.length = fb.depthBuffer.length := by
  unfold Framebuffer.point
  split
  · split
    · simp
    · rfl
  · rfl

/-- A write whose depth fails the strict test leaves the framebuffer intact. -/
theorem point_noop_high (fb : Framebuffer) (x y : ℤ) (c : V3) (d : F32)
    (h : F32.lt d (fb.depthBuffer.getD (y * fb.width + x).toNat F32.nan) = false) :
    fb.point x y c d = fb := by
  unfold Framebuffer.point
  split
  · have hne : ¬(F32.lt d (fb.depthBuffer.getD (y * fb.width + x).toNat F32.nan) = true) := by
      rw [h]
      simp
    rw [if_neg hne]
  · rfl

/-- Writing the same pixel/depth again right away changes nothing (shared
helper behind the idempotence claim). -/
theorem point_point_same (fb : Framebuffer) (x y : ℤ) (c : V3) (d : F32)
    (hlen : (y * fb.width + x).toNat < fb.depthBuffer.length) :
    (fb.point x y c d).point x y c d = fb.point x y c d := by
  by_cases hb : 0 ≤ x ∧ x < fb.width ∧ 0 ≤ y ∧ y < fb.height
  · rw [point_spec_in fb x y c d hb]
    by_cases hp : F32.lt d (fb.depthBuffer.getD (y * fb.width + x).toNat F32.nan)
    · rw [if_pos hp]
      apply point_noop_high
      show F32.lt d ((fb.depthBuffer.set (y * fb.width + x).toNat d).getD
        (y * fb.width + x).toNat F32.nan) = false
      rw [getD_set_self _ _ _ _ hlen]
      exact F32.ltIrrefl d
    · rw [if_neg hp, point_noop_high fb x y c d (by simpa using hp)]
  · rw [point_oob fb x y c d hb, point_oob fb x y c d hb]

/-! ### Elementary pixel writes and the per-cell state machine -/

/-- One elementary call to `Framebuffer::point`. -/
structure Write where
  x : ℤ
  y : ℤ
  color : V3
  depth : F32
deriving DecidableEq, Repr

def applyWrite (fb : Framebuffer) (w : Write) : Framebuffer :=
  fb.point w.x w.y w.color w.depth

def applyWrites (fb : Framebuffer) (ws : List Write) : Framebuffer :=
  ws.foldl applyWrite fb

theorem applyWrite_width (fb : Framebuffer) (w : Write) :
    (applyWrite fb w).width = fb.width := point_width fb w.x w.y w.color w.depth

theorem applyWrite_height (fb : Framebuffer) (w : Write) :
    (applyWrite fb w).height = fb.height := point_height fb w.x w.y w.color w.depth

theorem applyWrite_colorLen (fb : Framebuffer) (w : Write) :
    (applyWrite fb w).colorBuffer.length = fb.colorBuffer.length :=
  point_colorLen fb w.x w.y w.color w.depth

theorem applyWrite_depthLen (fb : Framebuffer) (w : Write) :
    (applyWrite fb w).depthBuffer.length = fb.depthBuffer.length :=
  point_depthLen fb w.x w.y w.color w.depth

/-- How one write transforms the (depth, color) state of the single cell
`(x, y)`: exactly `point`'s hit test and strict depth test. -/
def cellStep (x y : ℤ) (s : F32 × Color) (w : Write) : F32 × Color :=
  if (w.x = x ∧ w.y = y) ∧ F32.lt w.depth s.1 = true then (w.depth, packColor w.color)
  else s

theorem point_cellD_pass (fb : Framebuffer) (x y : ℤ) (c : V3) (d : F32)
    (hb : 0 ≤ x ∧ x < fb.width ∧ 0 ≤ y ∧ y < fb.height)
    (hld : (y * fb.width + x).toNat < fb.depthBuffer.length)
    (hp : F32.lt d (fb.depthBuffer.getD (y * fb.width + x).toNat F32.nan) = true) :
    cellD (fb.point x y c d) x y = d := by
  rw [point_spec_in fb x y c d hb, if_pos hp]
  show (fb.depthBuffer.set (y * fb.width + x).toNat d).getD (y * fb.width + x).toNat F32.nan = d
  exact getD_set_self _ _ _ _ hld

theorem point_cellC_pass (fb : Framebuffer) (x y : ℤ) (c : V3) (d : F32)
    (hb : 0 ≤ x ∧ x < fb.width ∧ 0 ≤ y ∧ y < fb.height)
    (hlc : (y * fb.width + x).toNat < fb.colorBuffer.length)
    (hp : F32.lt d (fb.depthBuffer.getD (y * fb.width + x).toNat F32.nan) = true) :
    cellC (fb.point x y c d) x y = packColor c := by
  rw [point_spec_in fb x y c d hb, if_pos hp]
  show (fb.colorBuffer.set (y * fb.width + x).toNat (packColor c)).getD
      (y * fb.width + x).toNat Color.black = packColor c
  exact getD_set_self _ _ _ _ hlc

theorem point_cellD_other (fb : Framebuffer) (x y wx wy : ℤ) (c : V3) (d : F32)
    (hx0 : 0 ≤ x) (hxw : x < fb.width) (hy0 : 0 ≤ y) (hyh : y < fb.height)
    (hne : ¬(wx = x ∧ wy = y)) :
    cellD (fb.point wx wy c d) x y = cellD fb x y := by
  by_cases hb : 0 ≤ wx ∧ wx < fb.width ∧ 0 ≤ wy ∧ wy < fb.height
  · rw [point_spec_in fb wx wy c d hb]
    split
    · show (fb.depthBuffer.set (wy * fb.width + wx).toNat d).getD
        (y * fb.width + x).toNat F32.nan = cellD fb x y
      rw [getD_set_ne _ _ _ _ _
        (idx_inj hx0 hxw hy0 hyh hb.1 hb.2.1 hb.2.2.1 hb.2.2.2 hne)]
      rfl
    · rfl
  · rw [point_oob fb wx wy c d hb]

theorem point_cellC_other (fb : Framebuffer) (x y wx wy : ℤ) (c : V3) (d : F32)
    (hx0 : 0 ≤ x) (hxw : x < fb.width) (hy0 : 0 ≤ y) (hyh : y < fb.height)
    (hne : ¬(wx = x ∧ wy = y)) :
    cellC (fb.point wx wy c d) x y = cellC fb x y := by
  by_cases hb : 0 ≤ wx ∧ wx < fb.width ∧ 0 ≤ wy ∧ wy < fb.height
  · rw [point_spec_in fb wx wy c d hb]
    split
    · show (fb.colorBuffer.set (wy * fb.width + wx).toNat (packColor c)).getD
        (y * fb.width + x).toNat Color.black = cellC fb x y
      rw [getD_set_ne _ _ _ _ _
        (idx_inj hx0 hxw hy0 hyh hb.1 hb.2.1 hb.2.2.1 hb.2.2.2 hne)]
      rfl
    · rfl
  · rw [point_oob fb wx wy c d hb]

/-- One write acts on the cell `(x, y)` exactly as `cellStep`. -/
theorem applyWrite_cell (fb : Framebuffer) (x y : ℤ) (w : Write)
    (hx0 : 0 ≤ x) (hxw : x < fb.width) (hy0 : 0 ≤ y) (hyh : y < fb.height)
    (hlc : (y * fb.width + x).toNat < fb.colorBuffer.length)
    (hld : (y * fb.width + x).toNat < fb.depthBuffer.length) :
    (cellD (applyWrite fb w) x y, cellC (applyWrite fb w) x y)
      = cellStep x y (cellD fb x y, cellC fb x y) w := by
  unfold applyWrite cellStep
  by_cases hhit : w.x = x ∧ w.y = y
  · obtain ⟨h1, h2⟩ := hhit
    subst h1
    subst h2
    by_cases hp : F32.lt w.depth (fb.depthBuffer.getD (w.y * fb.width + w.x).toNat F32.nan) = true
    · rw [if_pos ⟨⟨rfl, rfl⟩, hp⟩]
      refine Prod.ext ?_ ?_
      · exact point_cellD_pass fb w.x w.y w.color w.depth ⟨hx0, hxw, hy0, hyh⟩ hld hp
      · exact point_cellC_pass fb w.x w.y w.color w.depth ⟨hx0, hxw, hy0, hyh⟩ hlc hp
    · have hpf : F32.lt w.depth (fb.depthBuffer.getD (w.y * fb.width + w.x).toNat F32.nan) = false := by
        revert hp
        cases F32.lt w.depth (fb.depthBuffer.getD (w.y * fb.width + w.x).toNat F32.nan)
        · intro _; rfl
        · intro hcon; exact absurd rfl hcon
      rw [if_neg (fun hcon => hp hcon.2)]
      rw [point_noop_high fb w.x w.y w.color w.depth hpf]
  · rw [if_neg (fun hcon => hhit hcon.1)]
    refine Prod.ext ?_ ?_
    · exact point_cellD_other fb x y w.x w.y w.color w.depth hx0 hxw hy0 hyh hhit
    · exact point_cellC_other fb x y w.x w.y w.color w.depth hx0 hxw hy0 hyh hhit

/-- A whole write sequence acts on the cell `(x, y)` as the fold of
`cellStep` (projection of the framebuffer semantics to one cell). -/
theorem applyWrites_cell (x y : ℤ) :
    ∀ (ws : List Write) (fb : Framebuffer),
      0 ≤ x → x < fb.width → 0 ≤ y → y < fb.height →
      (y * fb.width + x).toNat < fb.colorBuffer.length →
      (y * fb.width + x).toNat < fb.depthBuffer.length →
      (cellD (applyWrites fb ws) x y, cellC (applyWrites fb ws) x y)
        = ws.foldl (cellStep x y) (cellD fb x y, cellC fb x y) := by
  intro ws
  induction ws with
  | nil => intro fb _ _ _ _ _ _; rfl
  | cons w t ih =>
    intro fb hx0 hxw hy0 hyh hlc hld
    have hA : applyWrites fb (w :: t) = applyWrites (applyWrite fb w) t := rfl
    rw [hA, List.foldl_cons,
      ← applyWrite_cell fb x y w hx0 hxw hy0 hyh hlc hld]
    exact ih (applyWrite fb w)
      hx0 (by rw [applyWrite_width]; exact hxw)
      hy0 (by rw [applyWrite_height]; exact hyh)
      (by rw [applyWrite_colorLen, applyWrite_width]; exact hlc)
      (by rw [applyWrite_depthLen, applyWrite_width]; exact hld)

/-! ### Spec-side description of a cell after a write history -/

/-- The writes aimed at pixel `(x, y)`. -/
def hits (ws : List Write) (x y : ℤ) : List Write :=
  ws.filter fun w => decide (w.x = x ∧ w.y = y)

/-- Minimum of two depths, ignoring `nan` (a `nan` candidate never wins,
matching the strict `<` depth test). -/
def fmin (a b : F32) : F32 := if F32.lt b a then b else a

/-- The minimum depth ever written to pixel `(x, y)` (`+inf` when no
comparable depth was ever written). -/
def specDepth (ws : List Write) (x y : ℤ) : F32 :=
  ((hits ws x y).map Write.depth).foldl fmin F32.inf

/-- The packed color of the first write to `(x, y)` attaining the minimum
depth, or the background color when no write ever passed. -/
def specColor (ws : List Write) (x y : ℤ) (bgc : Color) : Color :=
  if F32.lt (specDepth ws x y) F32.inf = true then
    match (hits ws x y).find? (fun u => decide (u.depth = specDepth ws x y)) with
    | some u => packColor u.color
    | none => bgc
  else bgc

/-- The fold of `fmin` is a lower bound for every list element (and for
the seed). -/
theorem foldl_fmin_lower :
    ∀ (l : List F32) (b v : F32), (v ∈ l ∨ F32.lt v b = false) →
      F32.lt v (l.foldl fmin b) = false := by
  intro l
  induction l with
  | nil =>
    intro b v h
    rcases h with h | h
    · simp at h
    · exact h
  | cons a t ih =>
    intro b v h
    rw [List.foldl_cons]
    apply ih
    rcases h with h | h
    · rcases List.mem_cons.mp h with h1 | h1
      · subst h1
        right
        unfold fmin
        split
        · exact F32.ltIrrefl v
        · next hnlt =>
          cases hvb : F32.lt v b
          · rfl
          · exact absurd hvb hnlt
      · exact Or.inl h1
    · right
      unfold fmin
      split
      · next hlt =>
        cases hva : F32.lt v a
        · rfl
        · exact absurd (F32.ltTrans hva hlt) (by rw [h]; exact Bool.false_ne_true)
      · exact h

/-- The fold of `fmin` is the seed or one of the list elements. -/
theorem foldl_fmin_mem :
    ∀ (l : List F32) (b : F32), l.foldl fmin b = b ∨ l.foldl fmin b ∈ l := by
  intro l
  induction l with
  | nil => intro b; exact Or.inl rfl
  | cons a t ih =>
    intro b
    rw [List.foldl_cons]
    rcases ih (fmin b a) with h | h
    · rw [h]
      unfold fmin
      split
      · exact Or.inr (List.mem_cons_self a t)
      · exact Or.inl rfl
    · exact Or.inr (List.mem_cons_of_mem a h)

theorem hits_append (ws1 ws2 : List Write) (x y : ℤ) :
    hits (ws1 ++ ws2) x y = hits ws1 x y ++ hits ws2 x y :=
  List.filter_append _ _

theorem hits_single_hit {w : Write} {x y : ℤ} (hw : w.x = x ∧ w.y = y) :
    hits [w] x y = [w] := by
  simp [hits, List.filter, hw]

theorem hits_single_miss {w : Write} {x y : ℤ} (hw : ¬(w.x = x ∧ w.y = y)) :
    hits [w] x y = [] := by
  simp [hits, List.filter, hw]

theorem specDepth_append_one (ws : List Write) (w : Write) (x y : ℤ) :
    specDepth (ws ++ [w]) x y =
      if w.x = x ∧ w.y = y then fmin (specDepth ws x y) w.depth
      else specDepth ws x y := by
  unfold specDepth
  rw [hits_append]
  by_cases hw : w.x = x ∧ w.y = y
  · rw [if_pos hw, hits_single_hit hw, List.map_append, List.foldl_append]
    rfl
  · rw [if_neg hw, hits_single_miss hw, List.append_nil]

/-- The per-cell state machine computes exactly the spec description:
running minimum depth and the packed color of its first attaining write. -/
theorem foldl_cellStep_spec (x y : ℤ) (bgc : Color) :
    ∀ ws : List Write,
      ws.foldl (cellStep x y) (F32.inf, bgc) = (specDepth ws x y, specColor ws x y bgc) := by
  intro ws
  induction ws using List.reverseRecOn with
  | nil =>
    unfold specDepth specColor hits
    simp [F32.lt]
  | append_singleton ws w ih =>
    rw [List.foldl_append, List.foldl_cons, List.foldl_nil, ih]
    by_cases hw : w.x = x ∧ w.y = y
    · have hd : specDepth (ws ++ [w]) x y = fmin (specDepth ws x y) w.depth := by
        rw [specDepth_append_one, if_pos hw]
      have hhits : hits (ws ++ [w]) x y = hits ws x y ++ [w] := by
        rw [hits_append, hits_single_hit hw]
      by_cases hp : F32.lt w.depth (specDepth ws x y) = true
      · have hdm : fmin (specDepth ws x y) w.depth = w.depth := by
          unfold fmin
          rw [if_pos hp]
        have hfind : (hits ws x y).find? (fun u => decide (u.depth = w.depth)) = none := by
          apply List.find?_eq_none.mpr
          intro v hv
          simp only [decide_eq_true_eq]
          intro hvd
          have hlow : F32.lt v.depth (specDepth ws x y) = false :=
            foldl_fmin_lower _ _ _ (Or.inl (List.mem_map_of_mem Write.depth hv))
          rw [hvd] at hlow
          rw [hlow] at hp
          exact Bool.false_ne_true hp
        have hcol : specColor (ws ++ [w]) x y bgc = packColor w.color := by
          unfold specColor
          rw [hd, hdm, if_pos (F32.lt_inf_of_lt hp), hhits, List.find?_append, hfind]
          simp
        rw [hd, hdm, hcol]
        unfold cellStep
        rw [if_pos ⟨hw, hp⟩]
      · have hpf : F32.lt w.depth (specDepth ws x y) = false := by
          cases h2 : F32.lt w.depth (specDepth ws x y)
          · rfl
          · exact absurd h2 hp
        have hdm : fmin (specDepth ws x y) w.depth = specDepth ws x y := by
          unfold fmin
          rw [hpf]
          simp
        have hcol : specColor (ws ++ [w]) x y bgc = specColor ws x y bgc := by
          unfold specColor
          rw [hd, hdm, hhits]
          by_cases hfin : F32.lt (specDepth ws x y) F32.inf = true
          · rw [if_pos hfin, if_pos hfin]
            have hmem : specDepth ws x y ∈ (hits ws x y).map Write.depth := by
              rcases foldl_fmin_mem ((hits ws x y).map Write.depth) F32.inf with h | h
              · exfalso
                have : specDepth ws x y = F32.inf := h
                rw [this] at hfin
                simp [F32.lt] at hfin
              · exact h
            obtain ⟨v, hv, hvd⟩ := List.mem_map.mp hmem
            have hsome : ∃ vf, (hits ws x y).find?
                (fun u => decide (u.depth = specDepth ws x y)) = some vf := by
              cases hf : (hits ws x y).find? (fun u => decide (u.depth = specDepth ws x y)) with
              | some vf => exact ⟨vf, rfl⟩
              | none =>
                exfalso
                have := List.find?_eq_none.mp hf v hv
                simp [hvd] at this
            obtain ⟨vf, hvf⟩ := hsome
            rw [List.find?_append, hvf]
            rfl
          · rw [if_neg hfin, if_neg hfin]
        rw [hd, hdm, hcol]
        unfold cellStep
        rw [if_neg (fun hcon => hp hcon.2)]
    · have hd : specDepth (ws ++ [w]) x y = specDepth ws x y := by
        rw [specDepth_append_one, if_neg hw]
      have hc : specColor (ws ++ [w]) x y bgc = specColor ws x y bgc := by
        unfold specColor
        rw [hd, hits_append, hits_single_miss hw, List.append_nil]
      rw [hd, hc]
      unfold cellStep
      rw [if_neg (fun hcon => hw hcon.1)]

/-! ### Bresenham line drawing (framebuffer.rs:50-87) -/

/-- The `Color → Vector3` conversion done inside the line loop
(framebuffer.rs:64-68): each byte divided by `255.0`. -/
def colorToV3 (c : Color) : V3 :=
  ⟨F32.val ((c.r : ℚ) / 255), F32.val ((c.g : ℚ) / 255), F32.val ((c.b : ℚ) / 255)⟩

/-- Two's-complement wrap of an integer into the `i32` range
`[-2^31, 2^31)`: the value an overflowing `i32` operation produces in
Rust's release mode (in debug mode overflow panics instead; either way
the source loop does not behave like unbounded integers). -/
def wrap32 (n : ℤ) : ℤ := (n + 2 ^ 31) % 2 ^ 32 - 2 ^ 31

/-- `i32::abs` with release-mode overflow semantics:
`abs(i32::MIN)` wraps back to `i32::MIN`. -/
def abs32 (n : ℤ) : ℤ := wrap32 |n|

/-- `wrap32` is the identity exactly on the `i32` range. -/
theorem wrap32_eq_self {n : ℤ} (h1 : -(2 ^ 31) ≤ n) (h2 : n < 2 ^ 31) :
    wrap32 n = n := by
  unfold wrap32
  omega

/-- The `loop` of `draw_line_with_depth` (framebuffer.rs:62-86), with an
explicit iteration bound `fuel` (the Rust loop has no structural
recursion) and an instrumentation list `pts` recording every pixel
plotted through `point`.  All `i32` arithmetic (`2 * err`, `-dy`,
`x0 + sx`, `y0 + sy`, `err - dy`, `err + dx`) wraps via `wrap32`,
matching release-mode two's-complement overflow.  The two step
conditions read the same `e2` computed before either update, as in the
source; the error update nests the source's two in-place adjustments. -/
def bresLoop (cvec : V3) (depth : F32) (x1 y1 dx dy sx sy : ℤ) :
    ℕ → ℤ → ℤ → ℤ → Framebuffer → List (ℤ × ℤ) → Option (Framebuffer × List (ℤ × ℤ))
  | 0, _, _, _, _, _ => none
  | fuel + 1, x0, y0, err, fb, pts =>
    if x0 = x1 ∧ y0 = y1 then some (fb.point x0 y0 cvec depth, pts ++ [(x0, y0)])
    else
      bresLoop cvec depth x1 y1 dx dy sx sy fuel
        (if wrap32 (2 * err) > wrap32 (-dy) then wrap32 (x0 + sx) else x0)
        (if wrap32 (2 * err) < dx then wrap32 (y0 + sy) else y0)
        (if wrap32 (2 * err) < dx then
          wrap32 ((if wrap32 (2 * err) > wrap32 (-dy) then wrap32 (err - dy) else err) + dx)
        else
          (if wrap32 (2 * err) > wrap32 (-dy) then wrap32 (err - dy) else err))
        (fb.point x0 y0 cvec depth) (pts ++ [(x0, y0)])

/-- `Framebuffer::draw_line_with_depth` (framebuffer.rs:50-87) run for at
most `fuel` iterations: `dx`, `dy` and `err` are set up with the same
wrapping `i32` arithmetic as the source (`(x1 - x0).abs()` etc.), then
the Bresenham loop is entered.  `none` means the loop has not finished
within `fuel` iterations; `bresLoop_stuck` below exhibits endpoints where
no amount of fuel suffices. -/
def Framebuffer.draw_line_for (fb : Framebuffer) (x0 y0 x1 y1 : ℤ)
    (color : Color) (depth : F32) (fuel : ℕ) : Option (Framebuffer × List (ℤ × ℤ)) :=
  bresLoop (colorToV3 color) depth x1 y1
    (abs32 (wrap32 (x1 - x0))) (abs32 (wrap32 (y1 - y0)))
    (if x0 < x1 then 1 else -1) (if y0 < y1 then 1 else -1)
    fuel x0 y0
    (wrap32 (abs32 (wrap32 (x1 - x0)) - abs32 (wrap32 (y1 - y0))))
    fb []

/-- `draw_line_with_depth` with the canonical iteration bound
`|x1 - x0| + |y1 - y0| + 1` (computed exactly — the bound is
instrumentation, not source arithmetic; `bresLoop_total` below shows this
fuel suffices whenever the coordinates are small enough that no `i32`
operation overflows). -/
def Framebuffer.draw_line_with_depth (fb : Framebuffer) (x0 y0 x1 y1 : ℤ)
    (color : Color) (depth : F32) : Option (Framebuffer × List (ℤ × ℤ)) :=
  fb.draw_line_for x0 y0 x1 y1 color depth (|x1 - x0| + |y1 - y0| + 1).toNat

/-- A state of the loop in which the endpoint is not reached and neither
step condition holds is a fixed point: the loop never terminates from it,
whatever the iteration bound. -/
theorem bresLoop_stuck (cvec : V3) (depth : F32) (x1 y1 dx dy sx sy x0 y0 err : ℤ)
    (hne : ¬(x0 = x1 ∧ y0 = y1))
    (hc1 : ¬(wrap32 (2 * err) > wrap32 (-dy)))
    (hc2 : ¬(wrap32 (2 * err) < dx)) :
    ∀ (fuel : ℕ) (fb : Framebuffer) (pts : List (ℤ × ℤ)),
      bresLoop cvec depth x1 y1 dx dy sx sy fuel x0 y0 err fb pts = none := by
  intro fuel
  induction fuel with
  | zero => intro fb pts; rfl
  | succ n ih =>
    intro fb pts
    simp only [bresLoop]
    rw [if_neg hne]
    simp only [if_neg hc1, if_neg hc2]
    exact ih _ _

/-- Either no iteration bound makes the loop finish from a state, or
there is a pixel list, containing the endpoint, such that from every
start framebuffer the loop returns the fold of `point` over that list
(the control flow never depends on the framebuffer). -/
theorem bresLoop_shape (cvec : V3) (depth : F32) (x1 y1 dx dy sx sy : ℤ) :
    ∀ (fuel : ℕ) (x0 y0 err : ℤ),
      (∀ (fb : Framebuffer) (pts : List (ℤ × ℤ)),
        bresLoop cvec depth x1 y1 dx dy sx sy fuel x0 y0 err fb pts = none) ∨
      (∃ new : List (ℤ × ℤ), (x1, y1) ∈ new ∧
        ∀ (fb : Framebuffer) (pts : List (ℤ × ℤ)),
          bresLoop cvec depth x1 y1 dx dy sx sy fuel x0 y0 err fb pts
            = some (new.foldl (fun b p => b.point p.1 p.2 cvec depth) fb, pts ++ new)) := by
  intro fuel
  induction fuel with
  | zero => intro x0 y0 err; exact Or.inl fun fb pts => rfl
  | succ n ih =>
    intro x0 y0 err
    by_cases hend : x0 = x1 ∧ y0 = y1
    · right
      obtain ⟨h1, h2⟩ := hend
      refine ⟨[(x0, y0)], ?_, fun fb pts => ?_⟩
      · rw [h1, h2]
        exact List.mem_singleton_self _
      · simp only [bresLoop]
        rw [if_pos ⟨h1, h2⟩]
        rfl
    · rcases ih (if wrap32 (2 * err) > wrap32 (-dy) then wrap32 (x0 + sx) else x0)
          (if wrap32 (2 * err) < dx then wrap32 (y0 + sy) else y0)
          (if wrap32 (2 * err) < dx then
            wrap32 ((if wrap32 (2 * err) > wrap32 (-dy) then wrap32 (err - dy) else err) + dx)
          else
            (if wrap32 (2 * err) > wrap32 (-dy) then wrap32 (err - dy) else err))
        with hnone | ⟨new, hmem, hrun⟩
      · left
        intro fb pts
        simp only [bresLoop]
        rw [if_neg hend]
        exact hnone _ _
      · right
        refine ⟨(x0, y0) :: new, List.mem_cons_of_mem _ hmem, fun fb pts => ?_⟩
        simp only [bresLoop]
        rw [if_neg hend, hrun]
        simp

set_option maxHeartbeats 3200000 in
/-- Totality and shape of the Bresenham loop in the overflow-free regime:
with every coordinate bounded by `2^26` in magnitude and the error value
within its reachable range `|err| ≤ 2(dx+dy)` (an invariant re-established
at every step from the branch conditions), every `wrap32` in the loop is
the identity, and from the state after `i` x-steps and `j` y-steps, with
enough fuel, the loop reaches the endpoint; its result is the fold of
`point` over the recorded pixel list, independently of the start
framebuffer. -/
theorem bresLoop_total (cvec : V3) (depth : F32) (X0 Y0 x1 y1 dx dy sx sy : ℤ)
    (hdx : dx = |x1 - X0|) (hdy : dy = |y1 - Y0|)
    (hsx : sx = if X0 < x1 then 1 else -1) (hsy : sy = if Y0 < y1 then 1 else -1)
    (hbX0 : |X0| ≤ 2 ^ 26) (hbx1 : |x1| ≤ 2 ^ 26)
    (hbY0 : |Y0| ≤ 2 ^ 26) (hby1 : |y1| ≤ 2 ^ 26) :
    ∀ (fuel : ℕ) (i j : ℤ), 0 ≤ i → i ≤ dx → 0 ≤ j → j ≤ dy →
      -2 * (dx + dy) ≤ dx - dy - i * dy + j * dx →
      dx - dy - i * dy + j * dx ≤ 2 * (dx + dy) →
      dx - i + (dy - j) < (fuel : ℤ) →
      ∃ new : List (ℤ × ℤ), (x1, y1) ∈ new ∧
        ∀ (fb : Framebuffer) (pts : List (ℤ × ℤ)),
          bresLoop cvec depth x1 y1 dx dy sx sy fuel (X0 + i * sx) (Y0 + j * sy)
            (dx - dy - i * dy + j * dx) fb pts
          = some (new.foldl (fun b p => b.point p.1 p.2 cvec depth) fb, pts ++ new) := by
  have hdx0 : 0 ≤ dx := by rw [hdx]; exact abs_nonneg _
  have hdy0 : 0 ≤ dy := by rw [hdy]; exact abs_nonneg _
  obtain ⟨hX0lo, hX0hi⟩ := abs_le.mp hbX0
  obtain ⟨hx1lo, hx1hi⟩ := abs_le.mp hbx1
  obtain ⟨hY0lo, hY0hi⟩ := abs_le.mp hbY0
  obtain ⟨hy1lo, hy1hi⟩ := abs_le.mp hby1
  have hdxB : dx ≤ 2 ^ 27 := by
    rw [hdx]
    calc |x1 - X0| ≤ |x1| + |X0| := abs_sub x1 X0
    _ ≤ 2 ^ 27 := by linarith
  have hdyB : dy ≤ 2 ^ 27 := by
    rw [hdy]
    calc |y1 - Y0| ≤ |y1| + |Y0| := abs_sub y1 Y0
    _ ≤ 2 ^ 27 := by linarith
  have hsx1 : sx = 1 ∨ sx = -1 := by
    rw [hsx]
    split
    · exact Or.inl rfl
    · exact Or.inr rfl
  have hsy1 : sy = 1 ∨ sy = -1 := by
    rw [hsy]
    split
    · exact Or.inl rfl
    · exact Or.inr rfl
  have hX1 : X0 + dx * sx = x1 := by
    rw [hsx, hdx]
    split
    · next h => rw [abs_of_pos (by linarith : (0:ℤ) < x1 - X0)]; ring
    · next h => rw [abs_of_nonpos (by linarith : x1 - X0 ≤ 0)]; ring
  have hY1 : Y0 + dy * sy = y1 := by
    rw [hsy, hdy]
    split
    · next h => rw [abs_of_pos (by linarith : (0:ℤ) < y1 - Y0)]; ring
    · next h => rw [abs_of_nonpos (by linarith : y1 - Y0 ≤ 0)]; ring
  have hxiff : ∀ k : ℤ, X0 + k * sx = x1 → k = dx := by
    intro k hk
    rw [← hX1] at hk
    have h2 : k * sx = dx * sx := by linarith
    rcases hsx1 with h1 | h1 <;> rw [h1] at h2 <;> linarith
  have hyiff : ∀ k : ℤ, Y0 + k * sy = y1 → k = dy := by
    intro k hk
    rw [← hY1] at hk
    have h2 : k * sy = dy * sy := by linarith
    rcases hsy1 with h1 | h1 <;> rw [h1] at h2 <;> linarith
  intro fuel
  induction fuel with
  | zero =>
    intro i j hi0 hidx hj0 hjdy hlo hhi hm
    exfalso
    push_cast at hm
    linarith
  | succ n ih =>
    intro i j hi0 hidx hj0 hjdy hlo hhi hm
    push_cast at hm
    by_cases hend : i = dx ∧ j = dy
    · obtain ⟨h1, h2⟩ := hend
      subst h1
      subst h2
      refine ⟨[(x1, y1)], List.mem_singleton_self _, fun fb pts => ?_⟩
      simp only [bresLoop]
      rw [if_pos ⟨hX1, hY1⟩, hX1, hY1]
      rfl
    · have hend2 : ¬(X0 + i * sx = x1 ∧ Y0 + j * sy = y1) :=
        fun hcon => hend ⟨hxiff i hcon.1, hyiff j hcon.2⟩
      have hA : wrap32 (2 * (dx - dy - i * dy + j * dx))
          = 2 * (dx - dy - i * dy + j * dx) := by
        apply wrap32_eq_self
        · linarith
        · linarith
      have hB : wrap32 (-dy) = -dy := by
        apply wrap32_eq_self
        · linarith
        · linarith
      have hWx : wrap32 (X0 + i * sx + sx) = X0 + i * sx + sx := by
        rcases hsx1 with h | h <;> rw [h] <;> apply wrap32_eq_self <;> linarith
      have hWy : wrap32 (Y0 + j * sy + sy) = Y0 + j * sy + sy := by
        rcases hsy1 with h | h <;> rw [h] <;> apply wrap32_eq_self <;> linarith
      have hWe : wrap32 (dx - dy - i * dy + j * dx - dy)
          = dx - dy - i * dy + j * dx - dy := by
        apply wrap32_eq_self
        · linarith
        · linarith
      rcases lt_or_eq_of_le hidx with hilt | hieq
      · rcases lt_or_eq_of_le hjdy with hjlt | hjeq
        · -- i < dx, j < dy : at least one step fires
          by_cases hc1 : 2 * (dx - dy - i * dy + j * dx) > -dy
          · by_cases hc2 : 2 * (dx - dy - i * dy + j * dx) < dx
            · -- both step
              obtain ⟨new2, hmem2, hrun2⟩ := ih (i + 1) (j + 1) (by linarith)
                (by linarith) (by linarith) (by linarith)
                (by
                  have e1 : (i + 1) * dy = i * dy + dy := by ring
                  have e2 : (j + 1) * dx = j * dx + dx := by ring
                  linarith)
                (by
                  have e1 : (i + 1) * dy = i * dy + dy := by ring
                  have e2 : (j + 1) * dx = j * dx + dx := by ring
                  linarith)
                (by linarith)
              refine ⟨(X0 + i * sx, Y0 + j * sy) :: new2,
                List.mem_cons_of_mem _ hmem2, fun fb pts => ?_⟩
              simp only [bresLoop]
              rw [if_neg hend2, hA, hB, if_pos hc1, if_pos hc2, if_pos hc2, if_pos hc1,
                hWx, hWy, hWe,
                show wrap32 (dx - dy - i * dy + j * dx - dy + dx)
                    = dx - dy - i * dy + j * dx - dy + dx from
                  wrap32_eq_self (by linarith) (by linarith),
                show X0 + i * sx + sx = X0 + (i + 1) * sx from by ring,
                show Y0 + j * sy + sy = Y0 + (j + 1) * sy from by ring,
                show dx - dy - i * dy + j * dx - dy + dx
                    = dx - dy - (i + 1) * dy + (j + 1) * dx from by ring,
                hrun2]
              simp
            · -- only x steps
              have hc2' : dx ≤ 2 * (dx - dy - i * dy + j * dx) := not_lt.mp hc2
              obtain ⟨new2, hmem2, hrun2⟩ := ih (i + 1) j (by linarith)
                (by linarith) hj0 hjdy
                (by
                  have e1 : (i + 1) * dy = i * dy + dy := by ring
                  linarith)
                (by
                  have e1 : (i + 1) * dy = i * dy + dy := by ring
                  linarith)
                (by linarith)
              refine ⟨(X0 + i * sx, Y0 + j * sy) :: new2,
                List.mem_cons_of_mem _ hmem2, fun fb pts => ?_⟩
              simp only [bresLoop]
              rw [if_neg hend2, hA, hB, if_pos hc1, if_neg hc2, if_neg hc2, if_pos hc1,
                hWx, hWe,
                show X0 + i * sx + sx = X0 + (i + 1) * sx from by ring,
                show dx - dy - i * dy + j * dx - dy
                    = dx - dy - (i + 1) * dy + j * dx from by ring,
                hrun2]
              simp
          · by_cases hc2 : 2 * (dx - dy - i * dy + j * dx) < dx
            · -- only y steps
              have hc1' : 2 * (dx - dy - i * dy + j * dx) ≤ -dy := not_lt.mp hc1
              obtain ⟨new2, hmem2, hrun2⟩ := ih i (j + 1) hi0 hidx
                (by linarith) (by linarith)
                (by
                  have e2 : (j + 1) * dx = j * dx + dx := by ring
                  linarith)
                (by
                  have e2 : (j + 1) * dx = j * dx + dx := by ring
                  linarith)
                (by linarith)
              refine ⟨(X0 + i * sx, Y0 + j * sy) :: new2,
                List.mem_cons_of_mem _ hmem2, fun fb pts => ?_⟩
              simp only [bresLoop]
              rw [if_neg hend2, hA, hB, if_neg hc1, if_pos hc2, if_pos hc2, if_neg hc1,
                hWy,
                show wrap32 (dx - dy - i * dy + j * dx + dx)
                    = dx - dy - i * dy + j * dx + dx from
                  wrap32_eq_self (by linarith) (by linarith),
                show Y0 + j * sy + sy = Y0 + (j + 1) * sy from by ring,
                show dx - dy - i * dy + j * dx + dx
                    = dx - dy - i * dy + (j + 1) * dx from by ring,
                hrun2]
              simp
            · -- neither fires: impossible while short of the endpoint
              exfalso
              push_neg at hc1 hc2
              linarith
        · -- i < dx, j = dy : exactly the x-step fires
          have hjdx : j * dx = dy * dx := by rw [hjeq]
          have hc1 : 2 * (dx - dy - i * dy + j * dx) > -dy := by
            rw [hjdx]
            nlinarith [mul_le_mul_of_nonneg_left (show 2 * i + 1 ≤ 2 * dx - 1 by linarith) hdy0]
          have hc2 : ¬(2 * (dx - dy - i * dy + j * dx) < dx) := by
            rw [hjdx]
            push_neg
            nlinarith [mul_le_mul_of_nonneg_left (show i + 1 ≤ dx by linarith)
              (show (0:ℤ) ≤ 2 * dy by linarith)]
          have hc2' : dx ≤ 2 * (dx - dy - i * dy + j * dx) := not_lt.mp hc2
          obtain ⟨new2, hmem2, hrun2⟩ := ih (i + 1) j (by linarith)
            (by linarith) hj0 hjdy
            (by
              have e1 : (i + 1) * dy = i * dy + dy := by ring
              linarith)
            (by
              have e1 : (i + 1) * dy = i * dy + dy := by ring
              linarith)
            (by linarith)
          refine ⟨(X0 + i * sx, Y0 + j * sy) :: new2,
            List.mem_cons_of_mem _ hmem2, fun fb pts => ?_⟩
          simp only [bresLoop]
          rw [if_neg hend2, hA, hB, if_pos hc1, if_neg hc2, if_neg hc2, if_pos hc1,
            hWx, hWe,
            show X0 + i * sx + sx = X0 + (i + 1) * sx from by ring,
            show dx - dy - i * dy + j * dx - dy
                = dx - dy - (i + 1) * dy + j * dx from by ring,
            hrun2]
          simp
      · -- i = dx, j < dy : exactly the y-step fires
        rcases lt_or_eq_of_le hjdy with hjlt | hjeq
        · have hidy : i * dy = dx * dy := by rw [hieq]
          have hc1 : ¬(2 * (dx - dy - i * dy + j * dx) > -dy) := by
            rw [hidy]
            push_neg
            nlinarith [mul_le_mul_of_nonneg_left (show j + 1 ≤ dy by linarith)
              (show (0:ℤ) ≤ 2 * dx by linarith)]
          have hc2 : 2 * (dx - dy - i * dy + j * dx) < dx := by
            rw [hidy]
            nlinarith [mul_le_mul_of_nonneg_left (show 2 * j + 1 ≤ 2 * dy - 1 by linarith) hdx0]
          have hc1' : 2 * (dx - dy - i * dy + j * dx) ≤ -dy := not_lt.mp hc1
          obtain ⟨new2, hmem2, hrun2⟩ := ih i (j + 1) hi0 hidx
            (by linarith) (by linarith)
            (by
              have e2 : (j + 1) * dx = j * dx + dx := by ring
              linarith)
            (by
              have e2 : (j + 1) * dx = j * dx + dx := by ring
              linarith)
            (by linarith)
          refine ⟨(X0 + i * sx, Y0 + j * sy) :: new2,
            List.mem_cons_of_mem _ hmem2, fun fb pts => ?_⟩
          simp only [bresLoop]
          rw [if_neg hend2, hA, hB, if_neg hc1, if_pos hc2, if_pos hc2, if_neg hc1,
            hWy,
            show wrap32 (dx - dy - i * dy + j * dx + dx)
                = dx - dy - i * dy + j * dx + dx from
              wrap32_eq_self (by linarith) (by linarith),
            show Y0 + j * sy + sy = Y0 + (j + 1) * sy from by ring,
            show dx - dy - i * dy + j * dx + dx
                = dx - dy - i * dy + (j + 1) * dx from by ring,
            hrun2]
          simp
        · exact absurd ⟨hieq, hjeq⟩ hend

/-- Shape of a whole `draw_line_with_depth` call: either its canonical
iteration bound does not let the loop finish (for any start framebuffer),
or the call succeeds, plots a pixel list containing the endpoint, and
equals the fold of `point` over that list — the list not depending on the
framebuffer. -/
theorem draw_line_with_depth_shape (x0 y0 x1 y1 : ℤ) (color : Color) (depth : F32) :
    (∀ fb : Framebuffer,
      fb.draw_line_with_depth x0 y0 x1 y1 color depth = none) ∨
    (∃ new : List (ℤ × ℤ), (x1, y1) ∈ new ∧
      ∀ fb : Framebuffer,
        fb.draw_line_with_depth x0 y0 x1 y1 color depth
          = some (new.foldl (fun b p => b.point p.1 p.2 (colorToV3 color) depth) fb, new)) := by
  rcases bresLoop_shape (colorToV3 color) depth x1 y1
      (abs32 (wrap32 (x1 - x0))) (abs32 (wrap32 (y1 - y0)))
      (if x0 < x1 then 1 else -1) (if y0 < y1 then 1 else -1)
      (|x1 - x0| + |y1 - y0| + 1).toNat x0 y0
      (wrap32 (abs32 (wrap32 (x1 - x0)) - abs32 (wrap32 (y1 - y0))))
    with hnone | ⟨new, hmem, hrun⟩
  · exact Or.inl fun fb => hnone fb []
  · right
    refine ⟨new, hmem, fun fb => ?_⟩
    have h := hrun fb []
    unfold Framebuffer.draw_line_with_depth Framebuffer.draw_line_for
    simpa using h

/-- The pixel list a line call plots (extracted by running the loop on a
dummy framebuffer; empty when the iteration bound runs out; by
`draw_line_with_depth_shape` the list is framebuffer independent). -/
def lineTrace (x0 y0 x1 y1 : ℤ) (color : Color) (depth : F32) : List (ℤ × ℤ) :=
  match (Framebuffer.new 0 0).draw_line_with_depth x0 y0 x1 y1 color depth with
  | some r => r.2
  | none => []

/-! ### Sequences of framebuffer operations -/

/-- A framebuffer mutation since the last clear: a `point` call or a
`draw_line_with_depth` call. -/
inductive Op where
  | pt (x y : ℤ) (color : V3) (depth : F32) : Op
  | line (x0 y0 x1 y1 : ℤ) (color : Color) (depth : F32) : Op

def applyOp (fb : Framebuffer) : Op → Framebuffer
  | .pt x y c d => fb.point x y c d
  | .line x0 y0 x1 y1 c d =>
    match fb.draw_line_with_depth x0 y0 x1 y1 c d with
    | some r => r.1
    | none => fb

def applyOps (fb : Framebuffer) (ops : List Op) : Framebuffer :=
  ops.foldl applyOp fb

/-- The elementary `point` writes an operation performs. -/
def opWrites : Op → List Write
  | .pt x y c d => [⟨x, y, c, d⟩]
  | .line x0 y0 x1 y1 c d =>
    (lineTrace x0 y0 x1 y1 c d).map fun p => ⟨p.1, p.2, colorToV3 c, d⟩

theorem applyOp_eq_writes (fb : Framebuffer) (op : Op) :
    applyOp fb op = applyWrites fb (opWrites op) := by
  cases op with
  | pt x y c d => rfl
  | line x0 y0 x1 y1 c d =>
    show (match fb.draw_line_with_depth x0 y0 x1 y1 c d with
      | some r => r.1 | none => fb) = _
    have hop : opWrites (Op.line x0 y0 x1 y1 c d)
        = (lineTrace x0 y0 x1 y1 c d).map
            (fun p => (⟨p.1, p.2, colorToV3 c, d⟩ : Write)) := rfl
    rcases draw_line_with_depth_shape x0 y0 x1 y1 c d with hnone | ⟨new, _, hrun⟩
    · have h2 : lineTrace x0 y0 x1 y1 c d = [] := by
        unfold lineTrace
        rw [hnone (Framebuffer.new 0 0)]
      rw [hnone fb]
      show fb = applyWrites fb (opWrites (.line x0 y0 x1 y1 c d))
      rw [hop, h2]
      rfl
    · have h2 : lineTrace x0 y0 x1 y1 c d = new := by
        unfold lineTrace
        rw [hrun (Framebuffer.new 0 0)]
      rw [hrun fb]
      show new.foldl (fun b p => b.point p.1 p.2 (colorToV3 c) d) fb
        = applyWrites fb (opWrites (.line x0 y0 x1 y1 c d))
      rw [hop, h2]
      unfold applyWrites
      rw [List.foldl_map]
      rfl

theorem applyOps_eq_writes (fb : Framebuffer) (ops : List Op) :
    applyOps fb ops = applyWrites fb ((ops.map opWrites).flatten) := by
  induction ops generalizing fb with
  | nil => rfl
  | cons op t ih =>
    show applyOps (applyOp fb op) t = _
    rw [ih, applyOp_eq_writes, List.map_cons]
    show applyWrites (applyWrites fb (opWrites op)) ((t.map opWrites).flatten)
      = applyWrites fb (opWrites op ++ (t.map opWrites).flatten)
    unfold applyWrites
    rw [← List.foldl_append]

/-- C10 (amended) — in the overflow-free regime where every endpoint
coordinate is at most `2^26` in magnitude (so no `i32` operation of the
loop overflows), `draw_line_with_depth` terminates within its canonical
iteration bound, and every pixel it produces — the endpoint `(x1, y1)`
included — is emitted through the single depth-tested write path `point`,
at the one fixed depth and color given for the whole segment. -/
theorem C10_draw_line_total (fb : Framebuffer) (x0 y0 x1 y1 : ℤ)
    (color : Color) (depth : F32)
    (hb0 : |x0| ≤ 2 ^ 26) (hb1 : |x1| ≤ 2 ^ 26)
    (hb2 : |y0| ≤ 2 ^ 26) (hb3 : |y1| ≤ 2 ^ 26) :
    ∃ r : Framebuffer × List (ℤ × ℤ),
      fb.draw_line_with_depth x0 y0 x1 y1 color depth = some r ∧
      (x1, y1) ∈ r.2 ∧
      r.1 = r.2.foldl (fun b p => b.point p.1 p.2 (colorToV3 color) depth) fb := by
  obtain ⟨h0lo, h0hi⟩ := abs_le.mp hb0
  obtain ⟨h1lo, h1hi⟩ := abs_le.mp hb1
  obtain ⟨h2lo, h2hi⟩ := abs_le.mp hb2
  obtain ⟨h3lo, h3hi⟩ := abs_le.mp hb3
  have hxB : |x1 - x0| ≤ 2 ^ 27 := by
    calc |x1 - x0| ≤ |x1| + |x0| := abs_sub x1 x0
    _ ≤ 2 ^ 27 := by linarith
  have hyB : |y1 - y0| ≤ 2 ^ 27 := by
    calc |y1 - y0| ≤ |y1| + |y0| := abs_sub y1 y0
    _ ≤ 2 ^ 27 := by linarith
  have hxw : wrap32 (x1 - x0) = x1 - x0 := wrap32_eq_self (by linarith) (by linarith)
  have hyw : wrap32 (y1 - y0) = y1 - y0 := wrap32_eq_self (by linarith) (by linarith)
  have hxa : abs32 (wrap32 (x1 - x0)) = |x1 - x0| := by
    unfold abs32
    rw [hxw]
    exact wrap32_eq_self (by linarith [abs_nonneg (x1 - x0)]) (by linarith)
  have hya : abs32 (wrap32 (y1 - y0)) = |y1 - y0| := by
    unfold abs32
    rw [hyw]
    exact wrap32_eq_self (by linarith [abs_nonneg (y1 - y0)]) (by linarith)
  have herr : wrap32 (|x1 - x0| - |y1 - y0|) = |x1 - x0| - |y1 - y0| :=
    wrap32_eq_self (by linarith [abs_nonneg (x1 - x0), abs_nonneg (y1 - y0)])
      (by linarith [abs_nonneg (y1 - y0)])
  obtain ⟨new, hmem, hrun⟩ :=
    bresLoop_total (colorToV3 color) depth x0 y0 x1 y1 |x1 - x0| |y1 - y0|
      (if x0 < x1 then 1 else -1) (if y0 < y1 then 1 else -1) rfl rfl rfl rfl
      hb0 hb1 hb2 hb3
      (|x1 - x0| + |y1 - y0| + 1).toNat 0 0 le_rfl (abs_nonneg _) le_rfl (abs_nonneg _)
      (by linarith [abs_nonneg (x1 - x0), abs_nonneg (y1 - y0)])
      (by linarith [abs_nonneg (x1 - x0), abs_nonneg (y1 - y0)])
      (by
        rw [Int.toNat_of_nonneg (by positivity)]
        linarith)
  refine ⟨(new.foldl (fun b p => b.point p.1 p.2 (colorToV3 color) depth) fb, new),
    ?_, hmem, rfl⟩
  have h := hrun fb []
  simp only [zero_mul, add_zero, sub_zero, List.nil_append] at h
  unfold Framebuffer.draw_line_with_depth Framebuffer.draw_line_for
  rw [hxa, hya, herr]
  exact h

/-- Witness for C10 at the endpoints `(0, 0) → (3, 2)` on a fresh 4×3
framebuffer. -/
theorem C10_witness :
    (|(0:ℤ)| ≤ 2 ^ 26 ∧ |(3:ℤ)| ≤ 2 ^ 26 ∧ |(2:ℤ)| ≤ 2 ^ 26) ∧
    ∃ r : Framebuffer × List (ℤ × ℤ),
      (Framebuffer.new 4 3).draw_line_with_depth 0 0 3 2 Color.white (F32.val 1)
        = some r ∧
      (3, 2) ∈ r.2 ∧
      r.1 = r.2.foldl (fun b p => b.point p.1 p.2 (colorToV3 Color.white) (F32.val 1))
        (Framebuffer.new 4 3) :=
  ⟨⟨by decide, by decide, by decide⟩,
   C10_draw_line_total (Framebuffer.new 4 3) 0 0 3 2 Color.white (F32.val 1)
     (by decide) (by decide) (by decide) (by decide)⟩

/-- At the endpoints `(2^30, 0) → (-2^30, 0)` the source's
`(x1 - x0).abs()` overflows `i32` (in release mode it wraps to `-2^31`;
debug mode panics), `2 * err` wraps to `0`, and from the first iteration
neither step condition fires while the endpoint is not reached — the loop
state is a fixed point, so no iteration bound whatsoever lets the line
loop finish, from any start framebuffer. -/
theorem draw_line_overflow_stuck :
    ∀ (fuel : ℕ) (fb : Framebuffer),
      Framebuffer.draw_line_for fb (2 ^ 30) 0 (-(2 ^ 30)) 0 Color.white (F32.val 1) fuel
        = none := by
  intro fuel fb
  unfold Framebuffer.draw_line_for
  exact bresLoop_stuck (colorToV3 Color.white) (F32.val 1) (-(2 ^ 30)) 0
    (abs32 (wrap32 (-(2 ^ 30) - 2 ^ 30))) (abs32 (wrap32 ((0:ℤ) - 0)))
    (if (2 ^ 30 : ℤ) < -(2 ^ 30) then 1 else -1) (if (0:ℤ) < 0 then 1 else -1)
    (2 ^ 30) 0
    (wrap32 (abs32 (wrap32 (-(2 ^ 30) - 2 ^ 30)) - abs32 (wrap32 ((0:ℤ) - 0))))
    (by decide) (by decide) (by decide) fuel fb []

/-- C10 as literally stated is false on the code: at the endpoints
`(2^30, 0) → (-2^30, 0)` the `i32` overflow of `(x1 - x0).abs()` and
`2 * err` leaves the loop state fixed, so the `draw_line_with_depth` call
never finishes — here instantiated at its canonical iteration bound
(`draw_line_overflow_stuck` shows no other bound helps either). -/
theorem C10_counterexample :
    (Framebuffer.new 4 3).draw_line_with_depth (2 ^ 30) 0 (-(2 ^ 30)) 0 Color.white
      (F32.val 1) = none := by
  unfold Framebuffer.draw_line_with_depth
  exact draw_line_overflow_stuck _ _

theorem clear_cellD (fb : Framebuffer) (x y : ℤ)
    (hx0 : 0 ≤ x) (hxw : x < fb.width) (hy0 : 0 ≤ y) (hyh : y < fb.height) :
    cellD fb.clear x y = F32.inf := by
  show (List.replicate (fb.width * fb.height).toNat F32.inf).getD
    (y * fb.width + x).toNat F32.nan = F32.inf
  exact getD_replicate _ _ _ _ (idx_lt hx0 hxw hy0 hyh)

theorem clear_cellC (fb : Framebuffer) (x y : ℤ)
    (hx0 : 0 ≤ x) (hxw : x < fb.width) (hy0 : 0 ≤ y) (hyh : y < fb.height) :
    cellC fb.clear x y = fb.backgroundColor := by
  show (List.replicate (fb.width * fb.height).toNat fb.backgroundColor).getD
    (y * fb.width + x).toNat Color.black = fb.backgroundColor
  exact getD_replicate _ _ _ _ (idx_lt hx0 hxw hy0 hyh)

theorem clear_colorLen (fb : Framebuffer) (x y : ℤ)
    (hx0 : 0 ≤ x) (hxw : x < fb.width) (hy0 : 0 ≤ y) (hyh : y < fb.height) :
    (y * fb.clear.width + x).toNat < fb.clear.colorBuffer.length := by
  show (y * fb.width + x).toNat
    < (List.replicate (fb.width * fb.height).toNat fb.backgroundColor).length
  rw [List.length_replicate]
  exact idx_lt hx0 hxw hy0 hyh

theorem clear_depthLen (fb : Framebuffer) (x y : ℤ)
    (hx0 : 0 ≤ x) (hxw : x < fb.width) (hy0 : 0 ≤ y) (hyh : y < fb.height) :
    (y * fb.clear.width + x).toNat < fb.clear.depthBuffer.length := by
  show (y * fb.width + x).toNat
    < (List.replicate (fb.width * fb.height).toNat F32.inf).length
  rw [List.length_replicate]
  exact idx_lt hx0 hxw hy0 hyh

theorem cellStep_hit_pass (x y : ℤ) (s : F32 × Color) (c : V3) (d : F32)
    (h : F32.lt d s.1 = true) :
    cellStep x y s ⟨x, y, c, d⟩ = (d, packColor c) := by
  unfold cellStep
  rw [if_pos ⟨⟨rfl, rfl⟩, h⟩]

theorem cellStep_hit_fail (x y : ℤ) (s : F32 × Color) (c : V3) (d : F32)
    (h : F32.lt d s.1 = false) :
    cellStep x y s ⟨x, y, c, d⟩ = s := by
  unfold cellStep
  rw [if_neg (fun hcon => Bool.false_ne_true (h ▸ hcon.2))]

/-- C2 — after a clear, for every sequence of `point` and
`draw_line_with_depth` operations, each in-bounds depth cell equals the
minimum depth ever written to that pixel (`+inf` when no write ever
passed) and each color cell holds the clamped, packed color of the first
write attaining that minimum (background color when no write ever
passed); `opWrites` lists the elementary depth-tested writes each
operation performs. -/
theorem C2_depth_color_invariant (fb0 : Framebuffer) (ops : List Op) (x y : ℤ)
    (hx0 : 0 ≤ x) (hxw : x < fb0.width) (hy0 : 0 ≤ y) (hyh : y < fb0.height) :
    cellD (applyOps fb0.clear ops) x y = specDepth ((ops.map opWrites).flatten) x y ∧
    cellC (applyOps fb0.clear ops) x y
      = specColor ((ops.map opWrites).flatten) x y fb0.backgroundColor := by
  have h := applyWrites_cell x y ((ops.map opWrites).flatten) fb0.clear
    hx0 hxw hy0 hyh
    (clear_colorLen fb0 x y hx0 hxw hy0 hyh)
    (clear_depthLen fb0 x y hx0 hxw hy0 hyh)
  rw [clear_cellD fb0 x y hx0 hxw hy0 hyh, clear_cellC fb0 x y hx0 hxw hy0 hyh,
    foldl_cellStep_spec] at h
  rw [applyOps_eq_writes]
  exact ⟨congrArg Prod.fst h, congrArg Prod.snd h⟩

theorem C2_witness :
    ((0:ℤ) ≤ 1 ∧ (1:ℤ) < (Framebuffer.new 4 4).width ∧ (0:ℤ) ≤ 0 ∧
        (0:ℤ) < (Framebuffer.new 4 4).height) ∧
    (cellD (applyOps (Framebuffer.new 4 4).clear
          [Op.pt 1 0 ⟨F32.val 1, F32.val 0, F32.val 0⟩ (F32.val 3),
           Op.line 0 0 3 0 ⟨255, 255, 255, 255⟩ (F32.val 2)]) 1 0
        = specDepth (([ Op.pt 1 0 ⟨F32.val 1, F32.val 0, F32.val 0⟩ (F32.val 3),
           Op.line 0 0 3 0 ⟨255, 255, 255, 255⟩ (F32.val 2)].map opWrites).flatten) 1 0 ∧
      cellC (applyOps (Framebuffer.new 4 4).clear
          [Op.pt 1 0 ⟨F32.val 1, F32.val 0, F32.val 0⟩ (F32.val 3),
           Op.line 0 0 3 0 ⟨255, 255, 255, 255⟩ (F32.val 2)]) 1 0
        = specColor (([ Op.pt 1 0 ⟨F32.val 1, F32.val 0, F32.val 0⟩ (F32.val 3),
           Op.line 0 0 3 0 ⟨255, 255, 255, 255⟩ (F32.val 2)].map opWrites).flatten) 1 0
            (Framebuffer.new 4 4).backgroundColor) :=
  ⟨⟨by decide, by decide, by decide, by decide⟩,
   C2_depth_color_invariant (Framebuffer.new 4 4) _ 1 0
     (by decide) (by decide) (by decide) (by decide)⟩

/-- C1 (amended) — on a cleared framebuffer, at an in-bounds pixel:
writing `(c1, d1)` then `(c2, d2)` stores the packed `c2` and depth `d2`
whenever `d2 < d1` (both cells updated on a passing test); and whenever
the first write itself passed the cleared-buffer test (`d1 < +inf`) and
`d2 >= d1`, the pixel keeps the packed `c1` and depth `d1` (equal depth
does not overwrite: first write wins on ties). -/
theorem C1_amended_depth_ordering (fb0 : Framebuffer) (x y : ℤ)
    (c1 : V3) (d1 : F32) (c2 : V3) (d2 : F32)
    (hx0 : 0 ≤ x) (hxw : x < fb0.width) (hy0 : 0 ≤ y) (hyh : y < fb0.height) :
    (F32.lt d2 d1 = true →
       cellD ((fb0.clear.point x y c1 d1).point x y c2 d2) x y = d2 ∧
       cellC ((fb0.clear.point x y c1 d1).point x y c2 d2) x y = packColor c2) ∧
    (F32.lt d1 F32.inf = true → F32.le d1 d2 = true →
       cellD ((fb0.clear.point x y c1 d1).point x y c2 d2) x y = d1 ∧
       cellC ((fb0.clear.point x y c1 d1).point x y c2 d2) x y = packColor c1) := by
  have hpair := applyWrites_cell x y [⟨x, y, c1, d1⟩, ⟨x, y, c2, d2⟩] fb0.clear
    hx0 hxw hy0 hyh
    (clear_colorLen fb0 x y hx0 hxw hy0 hyh)
    (clear_depthLen fb0 x y hx0 hxw hy0 hyh)
  rw [clear_cellD fb0 x y hx0 hxw hy0 hyh, clear_cellC fb0 x y hx0 hxw hy0 hyh] at hpair
  simp only [List.foldl_cons, List.foldl_nil] at hpair
  constructor
  · intro hlt
    by_cases hd1 : F32.lt d1 F32.inf = true
    · rw [cellStep_hit_pass x y _ c1 d1 hd1, cellStep_hit_pass x y _ c2 d2 hlt] at hpair
      exact ⟨congrArg Prod.fst hpair, congrArg Prod.snd hpair⟩
    · have hd1f : F32.lt d1 F32.inf = false := by
        cases hv : F32.lt d1 F32.inf
        · rfl
        · exact absurd hv hd1
      rw [cellStep_hit_fail x y _ c1 d1 hd1f,
        cellStep_hit_pass x y _ c2 d2 (F32.lt_inf_of_lt hlt)] at hpair
      exact ⟨congrArg Prod.fst hpair, congrArg Prod.snd hpair⟩
  · intro hfin hle
    rw [cellStep_hit_pass x y _ c1 d1 hfin,
      cellStep_hit_fail x y _ c2 d2 (F32.not_lt_of_ge hle)] at hpair
    exact ⟨congrArg Prod.fst hpair, congrArg Prod.snd hpair⟩

theorem C1_witness :
    F32.lt (F32.val 1) (F32.val 2) = true ∧
    (cellD (((Framebuffer.new 4 4).clear.point 1 1 ⟨F32.val 1, F32.val 0, F32.val 0⟩
          (F32.val 2)).point 1 1 ⟨F32.val 0, F32.val 1, F32.val 0⟩ (F32.val 1)) 1 1
        = F32.val 1 ∧
      cellC (((Framebuffer.new 4 4).clear.point 1 1 ⟨F32.val 1, F32.val 0, F32.val 0⟩
          (F32.val 2)).point 1 1 ⟨F32.val 0, F32.val 1, F32.val 0⟩ (F32.val 1)) 1 1
        = packColor ⟨F32.val 0, F32.val 1, F32.val 0⟩) :=
  ⟨by decide,
   (C1_amended_depth_ordering (Framebuffer.new 4 4) 1 1
      ⟨F32.val 1, F32.val 0, F32.val 0⟩ (F32.val 2)
      ⟨F32.val 0, F32.val 1, F32.val 0⟩ (F32.val 1)
      (by decide) (by decide) (by decide) (by decide)).1 (by decide)⟩

/-- C1 as literally stated is false at the edge `d1 = d2 = +inf`: the
first write fails the cleared-buffer test (`inf < inf` is false), so with
`d2 >= d1` the pixel holds the background color, not `c1`. -/
theorem C1_counterexample :
    F32.le F32.inf F32.inf = true ∧
    cellC (((Framebuffer.new 4 4).clear.point 0 0 ⟨F32.val 1, F32.val 0, F32.val 0⟩
          F32.inf).point 0 0 ⟨F32.val 0, F32.val 0, F32.val 1⟩ F32.inf) 0 0
      ≠ packColor ⟨F32.val 1, F32.val 0, F32.val 0⟩ :=
  ⟨by decide, by decide⟩

/-- C7 — an in-bounds write that passes the depth test stores the packed
color whose every channel is the clamped component (`v < 0` stores byte
0, `v > 1` stores byte 255 — clamped to the nearest bound, never
wrapped). -/
theorem C7_color_clamping (fb : Framebuffer) (x y : ℤ) (c : V3) (d : F32)
    (hb : 0 ≤ x ∧ x < fb.width ∧ 0 ≤ y ∧ y < fb.height)
    (hlc : (y * fb.width + x).toNat < fb.colorBuffer.length)
    (hp : F32.lt d (fb.depthBuffer.getD (y * fb.width + x).toNat F32.nan) = true) :
    cellC (fb.point x y c d) x y
        = { r := chanByte c.x, g := chanByte c.y, b := chanByte c.z, a := 255 } ∧
    (∀ v : F32, F32.lt v (F32.val 0) = true → chanByte v = 0) ∧
    (∀ v : F32, F32.lt (F32.val 1) v = true → chanByte v = 255) := by
  refine ⟨point_cellC_pass fb x y c d hb hlc hp, ?_, ?_⟩
  · intro v hv
    cases v with
    | nan => simp [F32.lt] at hv
    | inf => simp [F32.lt] at hv
    | ninf => decide
    | val q =>
      have hq : q < 0 := by simpa [F32.lt] using hv
      have h1 : F32.clamp (F32.val q) (F32.val 0) (F32.val 1) = F32.val 0 := by
        unfold F32.clamp
        rw [if_pos (show F32.lt (F32.val q) (F32.val 0) = true by simp [F32.lt, hq])]
      unfold chanByte
      rw [h1]
      show F32.scale255ToU8 (F32.val 0) = 0
      norm_num [F32.scale255ToU8]
  · intro v hv
    cases v with
    | nan => simp [F32.lt] at hv
    | ninf => simp [F32.lt] at hv
    | inf => decide
    | val q =>
      have hq : 1 < q := by simpa [F32.lt] using hv
      have h1 : F32.clamp (F32.val q) (F32.val 0) (F32.val 1) = F32.val 1 := by
        unfold F32.clamp
        rw [if_neg (show ¬(F32.lt (F32.val q) (F32.val 0) = true) by
            simp [F32.lt]
            linarith),
          if_pos (show F32.lt (F32.val 1) (F32.val q) = true by simp [F32.lt, hq])]
      unfold chanByte
      rw [h1]
      show F32.scale255ToU8 (F32.val 1) = 255
      norm_num [F32.scale255ToU8]

theorem C7_witness :
    ((0:ℤ) ≤ 0 ∧ (0:ℤ) < (Framebuffer.new 4 4).width ∧ (0:ℤ) ≤ 0 ∧
        (0:ℤ) < (Framebuffer.new 4 4).height) ∧
    F32.lt (F32.val 1)
      ((Framebuffer.new 4 4).depthBuffer.getD
        ((0:ℤ) * (Framebuffer.new 4 4).width + 0).toNat F32.nan) = true ∧
    (cellC ((Framebuffer.new 4 4).point 0 0
          ⟨F32.val 2, F32.val (-1), F32.val 0⟩ (F32.val 1)) 0 0
        = { r := chanByte (F32.val 2), g := chanByte (F32.val (-1)),
            b := chanByte (F32.val 0), a := 255 } ∧
      (∀ v : F32, F32.lt v (F32.val 0) = true → chanByte v = 0) ∧
      (∀ v : F32, F32.lt (F32.val 1) v = true → chanByte v = 255)) :=
  ⟨by decide, by decide,
   C7_color_clamping (Framebuffer.new 4 4) 0 0
     ⟨F32.val 2, F32.val (-1), F32.val 0⟩ (F32.val 1)
     (by decide) (by decide) (by decide)⟩

/-- C9 — writing the same `(x, y, color, depth)` twice to a freshly
cleared framebuffer leaves both buffers in the same state as writing it
once. -/
theorem C9_depth_test_idempotent (fb0 : Framebuffer) (x y : ℤ) (c : V3) (d : F32)
    (h : 0 ≤ x ∧ x < fb0.width ∧ 0 ≤ y ∧ y < fb0.height) :
    (fb0.clear.point x y c d).point x y c d = fb0.clear.point x y c d := by
  obtain ⟨hx0, hxw, hy0, hyh⟩ := h
  apply point_point_same
  show (y * fb0.width + x).toNat < (List.replicate (fb0.width * fb0.height).toNat F32.inf).length
  rw [List.length_replicate]
  exact idx_lt hx0 hxw hy0 hyh

theorem C9_witness :
    ((0:ℤ) ≤ 1 ∧ (1:ℤ) < (Framebuffer.new 4 4).width ∧ (0:ℤ) ≤ 2 ∧
        (2:ℤ) < (Framebuffer.new 4 4).height) ∧
    ((Framebuffer.new 4 4).clear.point 1 2 ⟨F32.val 1, F32.val 0, F32.val 0⟩
        (F32.val 5)).point 1 2 ⟨F32.val 1, F32.val 0, F32.val 0⟩ (F32.val 5)
      = (Framebuffer.new 4 4).clear.point 1 2 ⟨F32.val 1, F32.val 0, F32.val 0⟩ (F32.val 5) :=
  ⟨by decide,
   C9_depth_test_idempotent (Framebuffer.new 4 4) 1 2 _ _ (by decide)⟩
